import Mathlib

/-!
Verification of the moment-selection and clip-rendering core of
`src/app.py` (TikTok Clip Maker).

Shallow embedding conventions:
* Python floats are modelled as exact rationals (`ℚ`);
* Python lists as `List`, Python strings as `String` / `List Char`;
* a Python function that can raise is modelled as an `Option`-valued
  function, `none` standing for a raised exception;
* Python's global constant `MAX_CLIPS` is passed as an explicit
  parameter `max_clips` so that properties quantifying over the clip
  limit can be stated; the program instance is `max_clips = 10`.
-/

unseal Rat.add Rat.mul Rat.sub Rat.inv Rat.ofScientific

/-- Python `int(x)` applied to a float value: truncation toward zero. -/
def pytrunc (q : ℚ) : ℤ := if 0 ≤ q then ⌊q⌋ else ⌈q⌉

/-- Python `x % y` on floats: `x - y * floor (x / y)` (for `y ≠ 0`). -/
def pymod (x y : ℚ) : ℚ := x - y * ⌊x / y⌋

/-- Python substring membership `needle in hay` for strings (char lists). -/
def pyIn (needle : List Char) : List Char → Bool
  | [] => needle.isEmpty
  | c :: rest => needle.isPrefixOf (c :: rest) || pyIn needle rest

/-- The decimal digit character for `n < 10`. -/
def digitChar (n : ℕ) : Char := Char.ofNat (48 + n)

/-- Decimal digit string of a natural number, fuel-based so that it
reduces in the kernel; `fuel = n + 1` always suffices since `n / 10 < n`
for `n ≥ 10`. -/
def natDigitsAux : ℕ → ℕ → List Char
  | 0, _ => []
  | fuel + 1, n =>
    if n < 10 then [digitChar n]
    else natDigitsAux fuel (n / 10) ++ [digitChar (n % 10)]

/-- Decimal digit string of a natural number (no sign, no padding). -/
def natDigits (n : ℕ) : List Char := natDigitsAux (n + 1) n

/-- Value of a decimal digit string (as read back by `int()` / `float()`). -/
def parseDigits (l : List Char) : ℕ := l.foldl (fun a c => 10 * a + (c.toNat - 48)) 0

/-- Left-pad a char list with `'0'` to width `w`. -/
def leftPad0 (w : ℕ) (l : List Char) : List Char := List.replicate (w - l.length) '0' ++ l

/-- Python `"{:0wd}".format(n)`: zero-padded fixed-width decimal
(zeros go between the sign and the digits). -/
def pyFmt0 (w : ℕ) (n : ℤ) : List Char :=
  if 0 ≤ n then leftPad0 w (natDigits n.toNat)
  else '-' :: leftPad0 (w - 1) (natDigits n.natAbs)

/-- Python `str.split(sep)` for a one-character separator. -/
def splitOnChar (c : Char) : List Char → List (List Char)
  | [] => [[]]
  | x :: xs =>
    match splitOnChar c xs with
    | [] => [[x]]
    | h :: t => if x = c then [] :: h :: t else (x :: h) :: t

/-- Python `str.replace(a, b)` for one-character arguments. -/
def pyReplace (a b : Char) (l : List Char) : List Char :=
  l.map fun c => if c = a then b else c

/-- Python `int(str)`: optional sign followed by a nonempty digit string
(`none` models a raised `ValueError`; whitespace/underscore forms, which
never occur in this program, are not modelled). -/
def pyInt? (l : List Char) : Option ℤ :=
  match l with
  | [] => none
  | c :: rest =>
    if c = '-' then
      if rest ≠ [] ∧ rest.all Char.isDigit then some (-(parseDigits rest : ℤ)) else none
    else if c = '+' then
      if rest ≠ [] ∧ rest.all Char.isDigit then some ((parseDigits rest : ℤ)) else none
    else if (c :: rest).all Char.isDigit then some ((parseDigits (c :: rest) : ℤ)) else none

/-- Python `float(str)` restricted to plain decimal notation: optional
sign, digits, optional `'.'` and fraction digits (`none` models a raised
`ValueError`; exponent/`inf`/`nan` forms, which never occur in this
program, are not modelled). -/
def pyFloatCore (body : List Char) : Option ℚ :=
  match splitOnChar '.' body with
  | [ip] => if ip ≠ [] ∧ ip.all Char.isDigit then some ((parseDigits ip : ℚ)) else none
  | [ip, fp] =>
    if (ip ≠ [] ∨ fp ≠ []) ∧ ip.all Char.isDigit ∧ fp.all Char.isDigit then
      some ((parseDigits ip : ℚ) + (parseDigits fp : ℚ) / 10 ^ fp.length)
    else none
  | _ => none

def pyFloat? (l : List Char) : Option ℚ :=
  match l with
  | c :: rest =>
    if c = '-' then (pyFloatCore rest).map Neg.neg
    else if c = '+' then pyFloatCore rest
    else pyFloatCore (c :: rest)
  | [] => none

/-- `srt_to_seconds` (src/app.py:41-47): replace `','` by `'.'`, split on
`':'`, read hours/minutes as ints and seconds as a float.  `none` models
the exception raised on malformed input. -/
def srt_to_seconds (srt_time : List Char) : Option ℚ :=
  match splitOnChar ':' (pyReplace ',' '.' srt_time) with
  | p0 :: p1 :: p2 :: _ =>
    match pyInt? p0, pyInt? p1, pyFloat? p2 with
    | some hours, some minutes, some seconds => some (hours * 3600 + minutes * 60 + seconds)
    | _, _, _ => none
  | _ => none

/-- `seconds_to_srt` (src/app.py:50-56): `HH:MM:SS,mmm`.  Python's `//`
on floats is floor division, `%` is floor-mod, and `int()` truncates
toward zero. -/
def seconds_to_srt (seconds : ℚ) : List Char :=
  let hours : ℤ := ⌊seconds / 3600⌋
  let minutes : ℤ := ⌊pymod seconds 3600 / 60⌋
  let secs : ℤ := pytrunc (pymod seconds 60)
  let millis : ℤ := pytrunc (pymod seconds 1 * 1000)
  pyFmt0 2 hours ++ ':' :: pyFmt0 2 minutes ++ ':' :: pyFmt0 2 secs ++ ',' :: pyFmt0 3 millis

/-- One time-stamped transcript segment (`TranscriptSegment`). -/
structure Segment where
  start : ℚ
  «end» : ℚ
  text : String
  deriving DecidableEq, Repr

/-- The four capture groups of one match of the SRT cue pattern
`(\d+)\n(TS) --> (TS)\n(.*?)(?:\n\n|\Z)` (src/app.py:67). -/
structure MatchGroups where
  idx : List Char
  ts1 : List Char
  ts2 : List Char
  txt : List Char
  deriving DecidableEq, Repr

/-- Match `\d{2}:\d{2}:\d{2},\d{3}` at the head of the input; returns the
twelve matched characters and the rest. -/
def parseTS : List Char → Option (List Char × List Char)
  | a :: b :: ':' :: c :: d :: ':' :: e :: f :: ',' :: g :: h :: i :: rest =>
    if a.isDigit && b.isDigit && c.isDigit && d.isDigit && e.isDigit && f.isDigit &&
        g.isDigit && h.isDigit && i.isDigit then
      some ([a, b, ':', c, d, ':', e, f, ',', g, h, i], rest)
    else none
  | _ => none

/-- The lazy `(.*?)(?:\n\n|\Z)` tail (with `re.DOTALL`): the text runs to
the first `"\n\n"` (consumed) or to the end of input. -/
def scanText : List Char → List Char × List Char
  | [] => ([], [])
  | '\n' :: '\n' :: rest => ([], rest)
  | c :: rest =>
    let p := scanText rest
    (c :: p.1, p.2)

/-- Consume one expected literal character. -/
def expectChar (c : Char) : List Char → Option (List Char)
  | x :: r => if x = c then some r else none
  | [] => none

/-- Try to match the whole cue pattern at the head of the input.  The
greedy `(\d+)` is the maximal digit run (a shorter run would have to be
followed by `\n`, impossible since the next char is a digit); then
`\n`, a timestamp, the literal `" --> "`, a timestamp, `\n`, and the
lazy text tail. -/
def matchAt (l : List Char) : Option (MatchGroups × List Char) :=
  let ds := l.takeWhile Char.isDigit
  if ds.isEmpty then none else
  match expectChar '\n' (l.dropWhile Char.isDigit) with
  | none => none
  | some r2 =>
    match parseTS r2 with
    | none => none
    | some (ts1, r3) =>
      match ((((expectChar ' ' r3).bind (expectChar '-')).bind
          (expectChar '-')).bind (expectChar '>')).bind (expectChar ' ') with
      | none => none
      | some r4 =>
        match parseTS r4 with
        | none => none
        | some (ts2, r5) =>
          match expectChar '\n' r5 with
          | none => none
          | some r6 =>
            let p := scanText r6
            some (⟨ds, ts1, ts2, p.1⟩, p.2)

/-- `re.findall` of the cue pattern: scan left to right, on a match
continue after it, otherwise advance one position.  Fuel-based so that it
reduces in the kernel; `fuel = length + 1` always suffices since a match
consumes at least one character. -/
def findAllAux : ℕ → List Char → List MatchGroups
  | 0, _ => []
  | fuel + 1, l =>
    match matchAt l with
    | some (g, rem) => g :: findAllAux fuel rem
    | none =>
      match l with
      | [] => []
      | _ :: rest => findAllAux fuel rest

def findAll (l : List Char) : List MatchGroups := findAllAux (l.length + 1) l

/-- Python whitespace for `str.strip()`. -/
def pyIsSpace (c : Char) : Bool :=
  c = ' ' || c = '\t' || c = '\n' || c = '\r' || c = '\x0b' || c = '\x0c'

/-- `text.replace('\n', ' ').strip()` (src/app.py:74). -/
def cleanText (l : List Char) : List Char :=
  (((l.map fun c => if c = '\n' then ' ' else c).dropWhile pyIsSpace).reverse.dropWhile
    pyIsSpace).reverse

/-- The cue-building loop of `parse_srt` (src/app.py:70-80): convert
both timestamps of every match and collect the segments; `none` models
an exception propagating out of the loop (which in fact never happens:
matched timestamp groups always convert, see `parse_srt_total`). -/
def parseSegs : List MatchGroups → Option (List Segment)
  | [] => some []
  | g :: rest =>
    match srt_to_seconds g.ts1, srt_to_seconds g.ts2 with
    | some s, some e => (parseSegs rest).map fun tl => ⟨s, e, ⟨cleanText g.txt⟩⟩ :: tl
    | _, _ => none

/-- `parse_srt` (src/app.py:59-82) on the file's text content. -/
def parse_srt (content : String) : Option (List Segment) :=
  parseSegs (findAll content.data)

/-- The shape of a matched timestamp group: `\d{2}:\d{2}:\d{2},\d{3}`. -/
def tsShape (ts : List Char) : Prop :=
  ∃ a b c d e f g h i : Char,
    a.isDigit = true ∧ b.isDigit = true ∧ c.isDigit = true ∧ d.isDigit = true ∧
    e.isDigit = true ∧ f.isDigit = true ∧ g.isDigit = true ∧ h.isDigit = true ∧
    i.isDigit = true ∧ ts = [a, b, ':', c, d, ':', e, f, ',', g, h, i]

/-- `MAX_CLIPS` (src/app.py:22). -/
def MAX_CLIPS : ℕ := 10

/-- `VIRAL_KEYWORDS` (src/app.py:32-38). -/
def VIRAL_KEYWORDS : List String :=
  ["incredible", "amazing", "shocking", "unbelievable", "secret",
   "mistake", "truth", "revealed", "never", "always", "everyone",
   "nobody", "best", "worst", "crazy", "insane", "mind-blowing",
   "why", "how", "what if", "imagine", "should you", "can you",
   "must", "need to", "have to", "warning", "danger", "ultimate"]

/-- The per-segment score (src/app.py:118-133): `+0.3` for each keyword
of `VIRAL_KEYWORDS` occurring in the lowercased text, `+0.2` for a
question mark, `+0.15` for an exclamation mark.  Python's `str.lower()`
is `Char.toLower` per character (all relevant text is ASCII). -/
def segment_score (text : String) : ℚ :=
  let text_lower := text.data.map Char.toLower
  let s1 := VIRAL_KEYWORDS.foldl
    (fun acc kw => if pyIn kw.data text_lower then acc + 3/10 else acc) 0
  let s2 := if text.data.contains '?' then s1 + 2/10 else s1
  if text.data.contains '!' then s2 + 15/100 else s2

/-- A candidate or selected clip (`Moment`). -/
structure Moment where
  start : ℚ
  «end» : ℚ
  score : ℚ
  text : String
  deriving DecidableEq, Repr

/-- The end of a candidate window (src/app.py:138-146): `start + 60`,
clamped to `duration`, then snapped forward to the end of the first
segment (from the current one on) whose end is at least the clamped
value. -/
def candidateEnd (duration : ℚ) (seg : Segment) (tail : List Segment) : ℚ :=
  let e0 := seg.start + 60
  let e1 := if duration < e0 then duration else e0
  match (seg :: tail).find? (fun t => decide (e1 ≤ t.«end»)) with
  | some t => t.«end»
  | none => e1

/-- The candidate-window pass of `detect_viral_moments`
(src/app.py:118-157): for each segment scoring at least `0.3`, form the
window `[start, candidateEnd)` and keep it only if its duration lies in
`[45, 75]`. -/
def candidatesAux (duration : ℚ) : List Segment → List Moment
  | [] => []
  | seg :: rest =>
    let score := segment_score seg.text
    let here :=
      if 3/10 ≤ score then
        let e2 := candidateEnd duration seg rest
        let clip_duration := e2 - seg.start
        if 45 ≤ clip_duration ∧ clip_duration ≤ 75 then
          [⟨seg.start, e2, score, ⟨seg.text.data.take 100⟩⟩]
        else []
      else []
    here ++ candidatesAux duration rest

/-- Stable insertion (descending by score) used by `sortByScoreDesc`. -/
def insertDesc (m : Moment) : List Moment → List Moment
  | [] => [m]
  | x :: xs => if x.score ≤ m.score then m :: x :: xs else x :: insertDesc m xs

/-- `moments.sort(key=lambda x: x['score'], reverse=True)`
(src/app.py:160): stable sort, descending by score. -/
def sortByScoreDesc : List Moment → List Moment
  | [] => []
  | x :: xs => insertDesc x (sortByScoreDesc xs)

/-- The overlap test of the greedy selection loop (src/app.py:167):
`moment['start'] < selected['end'] and moment['end'] > selected['start']`
against any already selected moment. -/
def overlapAny (m : Moment) (selected : List Moment) : Bool :=
  selected.any fun s => decide (m.start < s.«end» ∧ s.start < m.«end»)

/-- The greedy selection loop (src/app.py:162-175): walk the ranked
list, accept a moment iff it overlaps no already accepted one, and stop
as soon as `max_clips` are accepted (the cap is checked after each
iteration, whether or not the moment was accepted). -/
def selectLoop (max_clips : ℕ) : List Moment → List Moment → List Moment
  | [], filtered => filtered
  | m :: rest, filtered =>
    let filtered' := if overlapAny m filtered then filtered else filtered ++ [m]
    if max_clips ≤ filtered'.length then filtered' else selectLoop max_clips rest filtered'

/-- `detect_viral_moments` (src/app.py:100-177), with the global
`MAX_CLIPS` as an explicit parameter (the program runs it at
`max_clips = MAX_CLIPS = 10`). -/
def detect_viral_moments (transcript : List Segment) (duration : ℚ) (max_clips : ℕ) :
    List Moment :=
  if transcript = [] ∨ duration = 0 then
    let num_clips : ℤ := min (pytrunc (duration / 60)) (max_clips : ℤ)
    (List.range num_clips.toNat).map fun (i : ℕ) =>
      let start : ℚ := (i : ℚ) * (duration / ((num_clips : ℤ) : ℚ))
      ⟨start, min (start + 60) duration, 5/10, "Interval clip"⟩
  else
    selectLoop max_clips (sortByScoreDesc (candidatesAux duration transcript)) []

/-- The caption filter of `create_clip` (src/app.py:184-187): keep the
cues fully contained in `[start_time, end_time]`. -/
def clip_captions (transcript : List Segment) (start_time end_time : ℚ) : List Segment :=
  transcript.filter fun seg => decide (start_time ≤ seg.start) && decide (seg.«end» ≤ end_time)

/-- The per-cue SRT entries written by `create_clip` (src/app.py:190-198):
sequential index from 1, both bounds shifted by `-start_time`, text kept. -/
def clip_srt_entries (transcript : List Segment) (start_time end_time : ℚ) :
    List (ℕ × ℚ × ℚ × String) :=
  (List.enumFrom 1 (clip_captions transcript start_time end_time)).map fun p =>
    (p.1, p.2.start - start_time, p.2.«end» - start_time, p.2.text)

/-! ### General lemmas about the greedy selection loop -/

/-- The moments two of which never overlap, as the Python overlap test
states it. -/
def NoOverlap (a b : Moment) : Prop := ¬ (a.start < b.«end» ∧ a.«end» > b.start)

lemma overlapAny_eq_false {m : Moment} {acc : List Moment}
    (h : overlapAny m acc = false) :
    ∀ s ∈ acc, ¬ (m.start < s.«end» ∧ s.start < m.«end») := by
  intro s hs
  have := List.any_eq_false.mp h s hs
  simpa using this

lemma selectLoop_nil (cap : ℕ) (acc : List Moment) : selectLoop cap [] acc = acc := rfl

lemma selectLoop_cons (cap : ℕ) (m : Moment) (rest acc : List Moment) :
    selectLoop cap (m :: rest) acc =
      (if cap ≤ (if overlapAny m acc then acc else acc ++ [m]).length
       then (if overlapAny m acc then acc else acc ++ [m])
       else selectLoop cap rest (if overlapAny m acc then acc else acc ++ [m])) := rfl

lemma selectLoop_pairwise (cap : ℕ) (l : List Moment) :
    ∀ acc, acc.Pairwise NoOverlap → (selectLoop cap l acc).Pairwise NoOverlap := by
  induction l with
  | nil => intro acc h; simpa [selectLoop_nil] using h
  | cons m rest ih =>
    intro acc h
    have h' : (if overlapAny m acc then acc else acc ++ [m]).Pairwise NoOverlap := by
      by_cases hov : overlapAny m acc
      · simpa [hov] using h
      · simp only [hov, if_false, Bool.false_eq_true]
        rw [List.pairwise_append]
        refine ⟨h, List.pairwise_singleton _ _, ?_⟩
        intro a ha b hb
        have hb' : b = m := by simpa using hb
        subst hb'
        have hno := overlapAny_eq_false (Bool.eq_false_iff.mpr hov) a ha
        intro hcon
        exact hno ⟨hcon.2, hcon.1⟩
    rw [selectLoop_cons]
    generalize hA : (if overlapAny m acc then acc else acc ++ [m]) = A
    rw [hA] at h'
    split
    · exact h'
    · exact ih _ h'

lemma selectLoop_length_le (cap : ℕ) (l : List Moment) :
    ∀ acc, acc.length ≤ (selectLoop cap l acc).length := by
  induction l with
  | nil => intro acc; simp [selectLoop_nil]
  | cons m rest ih =>
    intro acc
    have hlen : acc.length ≤ (if overlapAny m acc then acc else acc ++ [m]).length := by
      by_cases hov : overlapAny m acc <;> simp [hov]
    rw [selectLoop_cons]
    generalize hA : (if overlapAny m acc then acc else acc ++ [m]) = A
    rw [hA] at hlen
    split
    · exact hlen
    · exact le_trans hlen (ih _)

lemma selectLoop_length_mono {cap cap' : ℕ} (hc : cap ≤ cap') (l : List Moment) :
    ∀ acc, (selectLoop cap l acc).length ≤ (selectLoop cap' l acc).length := by
  induction l with
  | nil => intro acc; simp [selectLoop_nil]
  | cons m rest ih =>
    intro acc
    rw [selectLoop_cons, selectLoop_cons]
    generalize (if overlapAny m acc then acc else acc ++ [m]) = A
    by_cases h1 : cap ≤ A.length
    · rw [if_pos h1]
      by_cases h2 : cap' ≤ A.length
      · rw [if_pos h2]
      · rw [if_neg h2]
        exact selectLoop_length_le _ _ _
    · rw [if_neg h1]
      have h2 : ¬ cap' ≤ A.length := by omega
      rw [if_neg h2]
      exact ih _

lemma selectLoop_mem (cap : ℕ) (l : List Moment) :
    ∀ acc x, x ∈ selectLoop cap l acc → x ∈ acc ∨ x ∈ l := by
  induction l with
  | nil =>
    intro acc x hx
    rw [selectLoop_nil] at hx
    exact Or.inl hx
  | cons m rest ih =>
    intro acc x hx
    rw [selectLoop_cons] at hx
    have hacc : ∀ y, y ∈ (if overlapAny m acc then acc else acc ++ [m]) →
        y ∈ acc ∨ y = m := by
      intro y hy
      by_cases hov : overlapAny m acc
      · simp [hov] at hy; exact Or.inl hy
      · simp [hov] at hy
        rcases hy with hy | hy
        · exact Or.inl hy
        · exact Or.inr hy
    generalize hA : (if overlapAny m acc then acc else acc ++ [m]) = A at hx hacc
    split at hx
    · rcases hacc x hx with h | h
      · exact Or.inl h
      · exact Or.inr (by simp [h])
    · rcases ih _ x hx with h | h
      · rcases hacc x h with h' | h'
        · exact Or.inl h'
        · exact Or.inr (by simp [h'])
      · exact Or.inr (by simp [h])

lemma insertDesc_mem {x m : Moment} : ∀ {l : List Moment}, x ∈ insertDesc m l → x = m ∨ x ∈ l := by
  intro l
  induction l with
  | nil => intro h; simpa [insertDesc] using h
  | cons y ys ih =>
    intro h
    simp only [insertDesc] at h
    split at h
    · rcases List.mem_cons.mp h with h' | h'
      · exact Or.inl h'
      · exact Or.inr h'
    · rcases List.mem_cons.mp h with h' | h'
      · exact Or.inr (by simp [h'])
      · rcases ih h' with h'' | h''
        · exact Or.inl h''
        · exact Or.inr (by simp [h''])

lemma sortByScoreDesc_mem {x : Moment} :
    ∀ {l : List Moment}, x ∈ sortByScoreDesc l → x ∈ l := by
  intro l
  induction l with
  | nil => intro h; simp [sortByScoreDesc] at h
  | cons y ys ih =>
    intro h
    simp only [sortByScoreDesc] at h
    rcases insertDesc_mem h with h' | h'
    · simp [h']
    · exact List.mem_cons_of_mem _ (ih h')

lemma candidatesAux_gate {d : ℚ} {x : Moment} :
    ∀ {t : List Segment}, x ∈ candidatesAux d t →
      45 ≤ x.«end» - x.start ∧ x.«end» - x.start ≤ 75 := by
  intro t
  induction t with
  | nil => intro h; simp [candidatesAux] at h
  | cons seg rest ih =>
    intro h
    simp only [candidatesAux, List.mem_append] at h
    rcases h with h | h
    · by_cases hs : 3/10 ≤ segment_score seg.text
      · rw [if_pos hs] at h
        by_cases hg : 45 ≤ candidateEnd d seg rest - seg.start ∧
            candidateEnd d seg rest - seg.start ≤ 75
        · rw [if_pos hg] at h
          have hx : x = ⟨seg.start, candidateEnd d seg rest, segment_score seg.text,
              ⟨seg.text.data.take 100⟩⟩ := by simpa using h
          subst hx
          exact hg
        · rw [if_neg hg] at h
          simp at h
      · rw [if_neg hs] at h
        simp at h
    · exact ih h

/-! ### Lemmas about the fallback (interval) path -/

lemma fallback_step_ge_60 {d : ℚ} {m : ℕ}
    (h1 : 1 ≤ min (pytrunc (d / 60)) (m : ℤ)) :
    (60 : ℚ) ≤ d / ((min (pytrunc (d / 60)) (m : ℤ) : ℤ) : ℚ) ∧ (0 : ℚ) < d := by
  set nc := min (pytrunc (d / 60)) (m : ℤ) with hnc
  have htr : 1 ≤ pytrunc (d / 60) := le_trans h1 (min_le_left _ _)
  have hq : (1 : ℚ) ≤ d / 60 := by
    by_cases h0 : 0 ≤ d / 60
    · have : 1 ≤ ⌊d / 60⌋ := by rwa [pytrunc, if_pos h0] at htr
      exact_mod_cast le_trans (by exact_mod_cast this) (Int.floor_le _)
    · exfalso
      rw [pytrunc, if_neg h0] at htr
      have : ⌈d / 60⌉ ≤ 0 := Int.ceil_le.mpr (by linarith)
      omega
  have hd : (60 : ℚ) ≤ d := by
    rw [le_div_iff₀ (by norm_num : (0:ℚ) < 60)] at hq
    linarith
  have hcast : ((nc : ℤ) : ℚ) ≤ d / 60 := by
    have h2 : nc ≤ ⌊d / 60⌋ := by
      have := min_le_left (pytrunc (d / 60)) ((m : ℕ) : ℤ)
      rw [hnc]
      rw [pytrunc, if_pos (by linarith : (0:ℚ) ≤ d / 60)] at this ⊢
      exact this
    exact le_trans (by exact_mod_cast h2) (Int.floor_le _)
  have hpos : (0 : ℚ) < ((nc : ℤ) : ℚ) := by exact_mod_cast h1
  constructor
  · rw [le_div_iff₀ hpos]
    have h2 : ((nc : ℤ) : ℚ) * 60 ≤ d := (le_div_iff₀ (by norm_num : (0:ℚ) < 60)).mp hcast
    linarith
  · linarith

lemma fallback_end_le {d st : ℚ} {nc : ℤ}
    (hstep : (60 : ℚ) ≤ st) (hd : d = (nc : ℚ) * st) {i : ℕ} (hi : (i : ℤ) < nc) :
    (i : ℚ) * st + 60 ≤ d := by
  have h1 : ((i : ℚ) + 1) ≤ (nc : ℚ) := by exact_mod_cast hi
  have h2 : ((i : ℚ) + 1) * st ≤ (nc : ℚ) * st :=
    mul_le_mul_of_nonneg_right h1 (by linarith)
  calc (i : ℚ) * st + 60 ≤ (i : ℚ) * st + st := by linarith
    _ = ((i : ℚ) + 1) * st := by ring
    _ ≤ (nc : ℚ) * st := h2
    _ = d := hd.symm

/-! ### The claims -/

/-- Claim C1: for every transcript, duration and clip limit, any two
distinct moments in the output of `detect_viral_moments` do not overlap
as half-open intervals (`¬ (a.start < b.end ∧ a.end > b.start)`), on
both the primary transcript path and the fallback interval path. -/
theorem detect_viral_moments_nonoverlap (transcript : List Segment) (duration : ℚ)
    (max_clips : ℕ) :
    (detect_viral_moments transcript duration max_clips).Pairwise
      (fun a b => ¬ (a.start < b.«end» ∧ a.«end» > b.start)) := by
  unfold detect_viral_moments
  by_cases hc : transcript = [] ∨ duration = 0
  · rw [if_pos hc, List.pairwise_map]
    set nc := min (pytrunc (duration / 60)) (max_clips : ℤ) with hnc
    rcases Nat.eq_zero_or_pos nc.toNat with h0 | hpos
    · rw [h0]
      exact List.Pairwise.nil
    · have h1 : 1 ≤ nc := by omega
      obtain ⟨hstep, -⟩ := fallback_step_ge_60 h1
      refine List.Pairwise.imp ?_ (List.pairwise_lt_range _)
      intro i j hij
      intro hcon
      have hgt := hcon.2
      have hle : min ((i : ℚ) * (duration / (nc : ℚ)) + 60) duration ≤
          (j : ℚ) * (duration / (nc : ℚ)) := by
        have h1 : ((i : ℚ) + 1) ≤ (j : ℚ) := by exact_mod_cast hij
        have h2 : ((i : ℚ) + 1) * (duration / (nc : ℚ)) ≤
            (j : ℚ) * (duration / (nc : ℚ)) :=
          mul_le_mul_of_nonneg_right h1 (by linarith)
        refine le_trans (min_le_left _ _) ?_
        nlinarith
      simp only at hgt
      exact absurd hgt (not_lt.mpr hle)
  · rw [if_neg hc]
    exact selectLoop_pairwise _ _ [] List.Pairwise.nil

lemma foldl_score_count (c : ℚ) (p : String → Bool) :
    ∀ (l : List String) (init : ℚ),
      l.foldl (fun acc kw => if p kw then acc + c else acc) init
        = init + c * ((l.filter p).length : ℚ) := by
  intro l
  induction l with
  | nil => intro init; simp
  | cons x xs ih =>
    intro init
    by_cases hx : p x
    · simp only [List.foldl_cons, hx, if_pos, List.filter_cons_of_pos, List.length_cons, ih]
      push_cast
      ring
    · simp only [List.foldl_cons, hx, Bool.false_eq_true, if_false,
        List.filter_cons_of_neg, ih]
      simp [hx]

/-- Claim C2: the score of a transcript segment is `0.3` times the
number of distinct `VIRAL_KEYWORDS` occurring as substrings of the
lowercased text (the keyword list has no duplicates, so the filter
length counts distinct keywords, each once however often it occurs),
plus `0.2` for a question mark, plus `0.15` for an exclamation mark. -/
theorem segment_score_spec :
    VIRAL_KEYWORDS.Nodup ∧
    ∀ text : String,
      segment_score text =
        3/10 * (((VIRAL_KEYWORDS.filter
            fun kw => pyIn kw.data (text.data.map Char.toLower)).length : ℚ))
        + (if text.data.contains '?' then 2/10 else 0)
        + (if text.data.contains '!' then 15/100 else 0) := by
  constructor
  · decide
  · intro text
    simp only [segment_score]
    rw [foldl_score_count]
    by_cases hq : text.data.contains '?' <;> by_cases he : text.data.contains '!' <;>
      simp only [hq, he, if_true, Bool.false_eq_true, if_false] <;> ring

/-- Claim C10: there is a non-empty transcript and a positive duration
for which the primary path returns a moment ending strictly after the
video's total duration (the boundary snap extends past the clamp and is
never re-clamped): one segment `[0, 55)` with text "amazing" over a
50-second video yields the moment `[0, 55)`. -/
theorem detect_viral_moments_end_exceeds_duration :
    ∃ (transcript : List Segment) (duration : ℚ),
      transcript ≠ [] ∧ 0 < duration ∧
      ∃ mo ∈ detect_viral_moments transcript duration MAX_CLIPS,
        duration < mo.«end» :=
  ⟨[⟨0, 55, "amazing"⟩], 50, by decide, by decide,
    ⟨0, 55, 3/10, "amazing"⟩, by decide, by decide⟩

/-- Claim C9: for a fixed transcript and duration, increasing the clip
limit never decreases the number of moments returned. -/
theorem detect_viral_moments_count_mono (transcript : List Segment) (duration : ℚ)
    {m m' : ℕ} (h : m ≤ m') :
    (detect_viral_moments transcript duration m).length ≤
      (detect_viral_moments transcript duration m').length := by
  unfold detect_viral_moments
  by_cases hc : transcript = [] ∨ duration = 0
  · rw [if_pos hc, if_pos hc]
    simp only [List.length_map, List.length_range]
    have hmm : (m : ℤ) ≤ (m' : ℤ) := by exact_mod_cast h
    exact Int.toNat_le_toNat (min_le_min (le_refl _) hmm)
  · rw [if_neg hc, if_neg hc]
    exact selectLoop_length_mono h _ []

/-- Claim C9 witness: at the concrete transcript of claim C10's input,
limits 3 and 7. -/
theorem detect_viral_moments_count_mono_witness :
    (detect_viral_moments [⟨0, 55, "amazing"⟩] 50 3).length ≤
      (detect_viral_moments [⟨0, 55, "amazing"⟩] 50 7).length :=
  detect_viral_moments_count_mono _ _ (by decide)

/-- Claim C5: with a non-empty transcript and positive duration (the
primary path), every returned moment has duration in `[45, 75]`. -/
theorem detect_viral_moments_duration_gate (transcript : List Segment) (duration : ℚ)
    (max_clips : ℕ) (ht : transcript ≠ []) (hd : 0 < duration) :
    ∀ mo ∈ detect_viral_moments transcript duration max_clips,
      45 ≤ mo.«end» - mo.start ∧ mo.«end» - mo.start ≤ 75 := by
  intro mo hmo
  unfold detect_viral_moments at hmo
  rw [if_neg (by push_neg; exact ⟨ht, ne_of_gt hd⟩)] at hmo
  rcases selectLoop_mem _ _ _ _ hmo with h | h
  · simp at h
  · exact candidatesAux_gate (sortByScoreDesc_mem h)

/-- Claim C5 witness: the single moment selected from the one-segment
transcript over a 50-second video has duration 55 ∈ [45, 75]. -/
theorem detect_viral_moments_duration_gate_witness :
    45 ≤ (⟨0, 55, 3/10, "amazing"⟩ : Moment).«end» -
        (⟨0, 55, 3/10, "amazing"⟩ : Moment).start ∧
      (⟨0, 55, 3/10, "amazing"⟩ : Moment).«end» -
        (⟨0, 55, 3/10, "amazing"⟩ : Moment).start ≤ 75 :=
  detect_viral_moments_duration_gate [⟨0, 55, "amazing"⟩] 50 10
    (by decide) (by decide) _ (by decide)

/-- Claim C4 counterexample: a 30-second video with an empty transcript
has positive duration but the fallback returns no moments at all
(`min(int(30 / 60), 10) = 0`), so the pipeline produces no output. -/
theorem fallback_empty_for_short_video :
    detect_viral_moments [] 30 10 = [] ∧ (0 : ℚ) < 30 := by decide

/-- Claim C4 amended: with an empty transcript, a duration of at least
60 seconds and a positive clip limit, the fallback path produces at
least one moment. -/
theorem fallback_produces_output (d : ℚ) (m : ℕ) (hd : 60 ≤ d) (hm : 1 ≤ m) :
    1 ≤ (detect_viral_moments [] d m).length := by
  unfold detect_viral_moments
  rw [if_pos (Or.inl rfl)]
  simp only [List.length_map, List.length_range]
  have h1 : (1 : ℚ) ≤ d / 60 := by
    rw [le_div_iff₀ (by norm_num : (0:ℚ) < 60)]
    linarith
  have h60 : (1 : ℤ) ≤ pytrunc (d / 60) := by
    rw [pytrunc, if_pos (by linarith : (0:ℚ) ≤ d / 60)]
    exact Int.le_floor.mpr (by exact_mod_cast h1)
  have hmm : (1 : ℤ) ≤ (m : ℤ) := by exact_mod_cast hm
  simpa using Int.toNat_le_toNat (le_min h60 hmm)

/-- Claim C4 amended witness: a 120-second video with an empty
transcript and the program's limit 10. -/
theorem fallback_produces_output_witness :
    1 ≤ (detect_viral_moments [] 120 10).length :=
  fallback_produces_output 120 10 (by decide) (by decide)

/-- Claim C3 counterexample: for `total_duration = 90`, empty
transcript and `max_clips = 10`, the fallback returns the single window
`[0, 60)`; the point 70 lies in `[0, 90)` but in no returned window, so
the windows do not partition `[0, total_duration)`. -/
theorem fallback_not_partition :
    detect_viral_moments [] 90 10 = [⟨0, 60, 5/10, "Interval clip"⟩] ∧
    (∀ mo ∈ detect_viral_moments [] 90 10, ¬ (mo.start ≤ 70 ∧ (70 : ℚ) < mo.«end»)) ∧
    (0 : ℚ) ≤ 70 ∧ (70 : ℚ) < 90 := by decide

/-- Claim C3 amended: on the fallback path (empty transcript or zero
duration) the selector returns exactly `min(int(duration / 60),
max_clips)` moments (as a non-negative count); moment `i` is scored
`0.5`, carries the placeholder text, and occupies the window
`[i * (duration / n), i * (duration / n) + 60)` — so all windows have
equal width 60 and evenly spaced starts, but they partition
`[0, duration)` only when `duration = 60 * n`. -/
theorem fallback_moments_spec (transcript : List Segment) (d : ℚ) (m : ℕ)
    (h : transcript = [] ∨ d = 0) :
    (detect_viral_moments transcript d m).length
        = (min (pytrunc (d / 60)) (m : ℤ)).toNat ∧
    detect_viral_moments transcript d m =
      (List.range (min (pytrunc (d / 60)) (m : ℤ)).toNat).map fun i =>
        ⟨(i : ℚ) * (d / ((min (pytrunc (d / 60)) (m : ℤ) : ℤ) : ℚ)),
         (i : ℚ) * (d / ((min (pytrunc (d / 60)) (m : ℤ) : ℤ) : ℚ)) + 60,
         5/10, "Interval clip"⟩ := by
  unfold detect_viral_moments
  rw [if_pos h]
  dsimp only
  refine ⟨by simp, ?_⟩
  apply List.map_congr_left
  intro i hi
  set nc := min (pytrunc (d / 60)) (m : ℤ) with hnc
  have hi' : (i : ℤ) < nc := by
    have := List.mem_range.mp hi
    omega
  have h1 : 1 ≤ nc := by omega
  obtain ⟨hstep, -⟩ := fallback_step_ge_60 h1
  have hend : (i : ℚ) * (d / (nc : ℚ)) + 60 ≤ d := by
    refine fallback_end_le hstep ?_ hi'
    have hne : ((nc : ℤ) : ℚ) ≠ 0 := by
      have h0 : (0 : ℚ) < ((nc : ℤ) : ℚ) := by exact_mod_cast h1
      exact ne_of_gt h0
    rw [mul_comm]
    exact (div_mul_cancel₀ d hne).symm
  rw [min_eq_left hend]

/-- Claim C3 amended witness: `total_duration = 600`, empty transcript,
`max_clips = 10` gives exactly 10 windows of width 60. -/
theorem fallback_moments_spec_witness :
    (detect_viral_moments [] 600 10).length
        = (min (pytrunc ((600 : ℚ) / 60)) ((10 : ℕ) : ℤ)).toNat ∧
    detect_viral_moments [] 600 10 =
      (List.range (min (pytrunc ((600 : ℚ) / 60)) ((10 : ℕ) : ℤ)).toNat).map fun i =>
        ⟨(i : ℚ) * ((600 : ℚ) / ((min (pytrunc ((600 : ℚ) / 60)) ((10 : ℕ) : ℤ) : ℤ) : ℚ)),
         (i : ℚ) * ((600 : ℚ) / ((min (pytrunc ((600 : ℚ) / 60)) ((10 : ℕ) : ℤ) : ℤ) : ℚ)) + 60,
         5/10, "Interval clip"⟩ :=
  fallback_moments_spec [] 600 10 (Or.inl rfl)

/-- Claim C8: the clip's caption track holds exactly the cues fully
contained in the window (`start_time ≤ cue.start ∧ cue.end ≤ end_time`;
partially overlapping cues are dropped entirely, never truncated), each
re-timed by subtracting `start_time` from both bounds, and numbered
sequentially from 1. -/
theorem create_clip_captions_spec (transcript : List Segment) (st en : ℚ) :
    (clip_srt_entries transcript st en).map (fun e => e.1)
        = List.range' 1 (clip_captions transcript st en).length ∧
    (clip_srt_entries transcript st en).map (fun e => e.2)
        = (transcript.filter fun seg =>
            decide (st ≤ seg.start) && decide (seg.«end» ≤ en)).map
          (fun seg => (seg.start - st, seg.«end» - st, seg.text)) ∧
    ∀ seg ∈ transcript, ¬ (st ≤ seg.start ∧ seg.«end» ≤ en) →
      ∀ e ∈ clip_srt_entries transcript st en,
        e.2 ≠ (seg.start - st, seg.«end» - st, seg.text) := by
  have h2 : (clip_srt_entries transcript st en).map (fun e => e.2)
      = (transcript.filter fun seg =>
          decide (st ≤ seg.start) && decide (seg.«end» ≤ en)).map
        (fun seg => (seg.start - st, seg.«end» - st, seg.text)) := by
    rw [clip_srt_entries, List.map_map]
    have : ((fun (e : ℕ × ℚ × ℚ × String) => e.2) ∘
        (fun (p : ℕ × Segment) => (p.1, p.2.start - st, p.2.«end» - st, p.2.text)))
        = ((fun (seg : Segment) => (seg.start - st, seg.«end» - st, seg.text)) ∘ Prod.snd) :=
      rfl
    rw [this, ← List.map_map, List.enumFrom_map_snd]
    rfl
  refine ⟨?_, h2, ?_⟩
  · rw [clip_srt_entries, List.map_map]
    have : ((fun (e : ℕ × ℚ × ℚ × String) => e.1) ∘
        (fun (p : ℕ × Segment) => (p.1, p.2.start - st, p.2.«end» - st, p.2.text)))
        = (Prod.fst : ℕ × Segment → ℕ) := rfl
    rw [this, List.enumFrom_map_fst]
  · intro seg hseg hnc e he hcon
    have hmem : e.2 ∈ (clip_srt_entries transcript st en).map (fun e => e.2) :=
      List.mem_map_of_mem _ he
    rw [h2] at hmem
    rcases List.mem_map.mp hmem with ⟨seg', hseg', heq⟩
    rw [hcon] at heq
    have hstart : seg'.start = seg.start := by
      have := congrArg Prod.fst heq
      simpa using this
    have hend : seg'.«end» = seg.«end» := by
      have := congrArg (fun p => p.2.1) heq
      simpa using this
    have htext : seg'.text = seg.text := by
      have := congrArg (fun p => p.2.2) heq
      simpa using this
    have hseg'' : seg' = seg := by
      cases seg'; cases seg
      simp_all
    rw [hseg''] at hseg'
    rcases List.mem_filter.mp hseg' with ⟨-, hp⟩
    simp only [Bool.and_eq_true, decide_eq_true_eq] at hp
    exact hnc hp

/-! ### Lemmas about characters, splitting and substring search -/

lemma digit_ne_comma {c : Char} (h : c.isDigit = true) : c ≠ ',' := by
  intro he; subst he; exact absurd h (by decide)

lemma digit_ne_colon {c : Char} (h : c.isDigit = true) : c ≠ ':' := by
  intro he; subst he; exact absurd h (by decide)

lemma digit_ne_dot {c : Char} (h : c.isDigit = true) : c ≠ '.' := by
  intro he; subst he; exact absurd h (by decide)

lemma digit_ne_minus {c : Char} (h : c.isDigit = true) : c ≠ '-' := by
  intro he; subst he; exact absurd h (by decide)

lemma digit_ne_plus {c : Char} (h : c.isDigit = true) : c ≠ '+' := by
  intro he; subst he; exact absurd h (by decide)

lemma splitOnChar_ne_nil (c : Char) : ∀ l : List Char, splitOnChar c l ≠ [] := by
  intro l
  induction l with
  | nil => simp [splitOnChar]
  | cons x xs ih =>
    rw [splitOnChar]
    rcases he : splitOnChar c xs with - | ⟨h, t⟩
    · exact absurd he ih
    · by_cases hx : x = c <;> simp [hx]

lemma splitOnChar_of_notMem {c : Char} : ∀ {l : List Char}, c ∉ l → splitOnChar c l = [l] := by
  intro l
  induction l with
  | nil => intro _; rfl
  | cons x xs ih =>
    intro h
    have hx : x ≠ c := fun he => h (by simp [he])
    have hxs : c ∉ xs := fun hm => h (List.mem_cons_of_mem _ hm)
    rw [splitOnChar, ih hxs]
    simp [hx]

lemma splitOnChar_append_cons {c : Char} :
    ∀ {l1 : List Char}, c ∉ l1 → ∀ l2 : List Char,
      splitOnChar c (l1 ++ c :: l2) = l1 :: splitOnChar c l2 := by
  intro l1
  induction l1 with
  | nil =>
    intro _ l2
    rw [List.nil_append, splitOnChar]
    rcases he : splitOnChar c l2 with - | ⟨h, t⟩
    · exact absurd he (splitOnChar_ne_nil c l2)
    · simp
  | cons x xs ih =>
    intro h l2
    have hx : x ≠ c := fun he => h (by simp [he])
    have hxs : c ∉ xs := fun hm => h (List.mem_cons_of_mem _ hm)
    rw [List.cons_append, splitOnChar, ih hxs l2]
    simp [hx]

lemma isPrefixOf_append_self (n l : List Char) : n.isPrefixOf (n ++ l) = true := by
  induction n with
  | nil => simp [List.isPrefixOf]
  | cons c cs ih => simp [List.isPrefixOf, ih]

lemma pyIn_of_decomp {n : List Char} :
    ∀ (l1 l2 : List Char), pyIn n (l1 ++ (n ++ l2)) = true := by
  intro l1
  induction l1 with
  | nil =>
    intro l2
    rw [List.nil_append]
    cases hn : n with
    | nil => cases l2 <;> simp [pyIn]
    | cons a as =>
      rw [show (a :: as) ++ l2 = a :: (as ++ l2) from rfl, pyIn]
      rw [show a :: (as ++ l2) = (a :: as) ++ l2 from rfl, isPrefixOf_append_self]
      simp
  | cons x xs ih =>
    intro l2
    rw [List.cons_append, pyIn, ih l2]
    simp

lemma pyIn_cons_false {n : List Char} {c : Char} {rest : List Char}
    (h : pyIn n (c :: rest) = false) : pyIn n rest = false := by
  rw [pyIn] at h
  exact (Bool.or_eq_false_iff.mp h).2

/-! ### Lemmas about the SRT parser: parsing is total -/

lemma parseTS_eq : ∀ {l ts r : List Char}, parseTS l = some (ts, r) →
    tsShape ts ∧ l = ts ++ r := by
  intro l ts r h
  unfold parseTS at h
  split at h
  · rename_i a b c d e f g h2 i rest
    split at h
    · rename_i hdig
      simp only [Option.some.injEq, Prod.mk.injEq] at h
      obtain ⟨hts, hr⟩ := h
      subst hts; subst hr
      simp only [Bool.and_eq_true] at hdig
      refine ⟨⟨a, b, c, d, e, f, g, h2, i, ?_, ?_, ?_, ?_, ?_, ?_, ?_, ?_, ?_, rfl⟩, rfl⟩ <;>
        simp [hdig.1, hdig.2]
    · exact absurd h (by simp)
  · exact absurd h (by simp)

lemma pyInt?_digits {l : List Char} (hne : l ≠ []) (hall : l.all Char.isDigit = true) :
    pyInt? l = some ((parseDigits l : ℤ)) := by
  rcases l with - | ⟨c, rest⟩
  · exact absurd rfl hne
  · have hc : c.isDigit = true := by
      have := (List.all_eq_true.mp hall) c (by simp)
      simpa using this
    rw [pyInt?]
    rw [if_neg (digit_ne_minus hc), if_neg (digit_ne_plus hc), if_pos hall]

lemma pyFloatCore_point {ip fp : List Char} (hip : ip ≠ [])
    (hd1 : ip.all Char.isDigit = true) (hd2 : fp.all Char.isDigit = true)
    (hdot1 : '.' ∉ ip) (hdot2 : '.' ∉ fp) :
    pyFloatCore (ip ++ '.' :: fp)
      = some ((parseDigits ip : ℚ) + (parseDigits fp : ℚ) / 10 ^ fp.length) := by
  rw [pyFloatCore, splitOnChar_append_cons hdot1, splitOnChar_of_notMem hdot2]
  dsimp only
  rw [if_pos ⟨Or.inl hip, hd1, hd2⟩]

lemma pyFloat?_point (ip fp : List Char) (hip : ip ≠ [])
    (hd1 : ip.all Char.isDigit = true) (hd2 : fp.all Char.isDigit = true)
    (hdot1 : '.' ∉ ip) (hdot2 : '.' ∉ fp) :
    pyFloat? (ip ++ '.' :: fp)
      = some ((parseDigits ip : ℚ) + (parseDigits fp : ℚ) / 10 ^ fp.length) := by
  rcases ip with - | ⟨c, rest⟩
  · exact absurd rfl hip
  · have hc : c.isDigit = true := by
      have := (List.all_eq_true.mp hd1) c (by simp)
      simpa using this
    rw [List.cons_append, pyFloat?]
    rw [if_neg (digit_ne_minus hc), if_neg (digit_ne_plus hc), ← List.cons_append]
    exact pyFloatCore_point hip hd1 hd2 hdot1 hdot2

lemma srt_isSome_of_tsShape {ts : List Char} (h : tsShape ts) :
    (srt_to_seconds ts).isSome = true := by
  obtain ⟨a, b, c, d, e, f, g, h2, i, ha, hb, hc, hd, he, hf, hg, hh, hi, rfl⟩ := h
  have hrep : pyReplace ',' '.' [a, b, ':', c, d, ':', e, f, ',', g, h2, i]
      = [a, b, ':', c, d, ':', e, f, '.', g, h2, i] := by
    simp only [pyReplace, List.map_cons, List.map_nil]
    rw [if_neg (digit_ne_comma ha), if_neg (digit_ne_comma hb),
        if_neg (digit_ne_comma hc), if_neg (digit_ne_comma hd),
        if_neg (digit_ne_comma he), if_neg (digit_ne_comma hf),
        if_neg (digit_ne_comma hg), if_neg (digit_ne_comma hh),
        if_neg (digit_ne_comma hi),
        if_neg (by decide : ¬ (':' : Char) = ',')]
    simp
  have hsplit : splitOnChar ':' [a, b, ':', c, d, ':', e, f, '.', g, h2, i]
      = [[a, b], [c, d], [e, f, '.', g, h2, i]] := by
    have h1 : (':' : Char) ∉ [a, b] := by
      intro hm
      rcases List.mem_cons.mp hm with hm1 | hm1
      · exact digit_ne_colon ha hm1.symm
      · rcases List.mem_cons.mp hm1 with hm2 | hm2
        · exact digit_ne_colon hb hm2.symm
        · simp at hm2
    have h2' : (':' : Char) ∉ [c, d] := by
      intro hm
      rcases List.mem_cons.mp hm with hm1 | hm1
      · exact digit_ne_colon hc hm1.symm
      · rcases List.mem_cons.mp hm1 with hm2 | hm2
        · exact digit_ne_colon hd hm2.symm
        · simp at hm2
    have h3 : (':' : Char) ∉ [e, f, '.', g, h2, i] := by
      intro hm
      rcases List.mem_cons.mp hm with hm1 | hm1
      · exact digit_ne_colon he hm1.symm
      rcases List.mem_cons.mp hm1 with hm2 | hm2
      · exact digit_ne_colon hf hm2.symm
      rcases List.mem_cons.mp hm2 with hm3 | hm3
      · exact absurd hm3 (by decide)
      rcases List.mem_cons.mp hm3 with hm4 | hm4
      · exact digit_ne_colon hg hm4.symm
      rcases List.mem_cons.mp hm4 with hm5 | hm5
      · exact digit_ne_colon hh hm5.symm
      rcases List.mem_cons.mp hm5 with hm6 | hm6
      · exact digit_ne_colon hi hm6.symm
      · simp at hm6
    rw [show ([a, b, ':', c, d, ':', e, f, '.', g, h2, i] : List Char)
        = [a, b] ++ ':' :: ([c, d] ++ ':' :: [e, f, '.', g, h2, i]) from rfl]
    rw [splitOnChar_append_cons h1, splitOnChar_append_cons h2',
        splitOnChar_of_notMem h3]
  have hint1 : pyInt? [a, b] = some ((parseDigits [a, b] : ℤ)) :=
    pyInt?_digits (by simp) (by simp [ha, hb])
  have hint2 : pyInt? [c, d] = some ((parseDigits [c, d] : ℤ)) :=
    pyInt?_digits (by simp) (by simp [hc, hd])
  have hfl : pyFloat? [e, f, '.', g, h2, i]
      = some ((parseDigits [e, f] : ℚ)
          + (parseDigits [g, h2, i] : ℚ) / 10 ^ ([g, h2, i] : List Char).length) := by
    have := pyFloat?_point [e, f] [g, h2, i] (by simp)
      (by simp [he, hf]) (by simp [hg, hh, hi])
      (by intro hm
          rcases List.mem_cons.mp hm with hm1 | hm1
          · exact digit_ne_dot he hm1.symm
          rcases List.mem_cons.mp hm1 with hm2 | hm2
          · exact digit_ne_dot hf hm2.symm
          · simp at hm2)
      (by intro hm
          rcases List.mem_cons.mp hm with hm1 | hm1
          · exact digit_ne_dot hg hm1.symm
          rcases List.mem_cons.mp hm1 with hm2 | hm2
          · exact digit_ne_dot hh hm2.symm
          rcases List.mem_cons.mp hm2 with hm3 | hm3
          · exact digit_ne_dot hi hm3.symm
          · simp at hm3)
    simpa using this
  rw [srt_to_seconds, hrep, hsplit]
  simp [hint1, hint2, hfl]

lemma findAllAux_succ (fuel : ℕ) (l : List Char) :
    findAllAux (fuel + 1) l =
      (match matchAt l with
       | some (g, rem) => g :: findAllAux fuel rem
       | none =>
         match l with
         | [] => []
         | _ :: rest => findAllAux fuel rest) := rfl

lemma scanText_snd_length : ∀ l : List Char, (scanText l).2.length ≤ l.length := by
  intro l
  induction l using scanText.induct with
  | case1 => simp [scanText]
  | case2 rest => simp [scanText]; omega
  | case3 c rest hne ih =>
    rw [scanText.eq_def]
    split
    · simp
    · rename_i rest1 heq
      injection heq with h1 h2
      exact (hne rest1 h1 h2).elim
    · rename_i c2 rest2 hne2 heq
      injection heq with h1 h2
      subst h1; subst h2
      simpa using Nat.le_succ_of_le ih

lemma expectChar_eq_some {c : Char} : ∀ {l r : List Char},
    expectChar c l = some r → l = c :: r := by
  intro l r h
  cases l with
  | nil => exact absurd h (by simp [expectChar])
  | cons x xs =>
    rw [expectChar] at h
    split at h
    · rename_i hx
      subst hx
      simpa using h
    · exact absurd h (by simp)

lemma arrow_decomp {r3 r4 : List Char}
    (h : ((((expectChar ' ' r3).bind (expectChar '-')).bind
        (expectChar '-')).bind (expectChar '>')).bind (expectChar ' ') = some r4) :
    r3 = ' ' :: '-' :: '-' :: '>' :: ' ' :: r4 := by
  rcases Option.bind_eq_some.mp h with ⟨x4, h4, h5⟩
  rcases Option.bind_eq_some.mp h4 with ⟨x3, h3, h4'⟩
  rcases Option.bind_eq_some.mp h3 with ⟨x2, h2, h3'⟩
  rcases Option.bind_eq_some.mp h2 with ⟨x1, h1, h2'⟩
  rw [expectChar_eq_some h1, expectChar_eq_some h2', expectChar_eq_some h3',
      expectChar_eq_some h4', expectChar_eq_some h5]

lemma matchAt_eq {l : List Char} {g : MatchGroups} {rem : List Char}
    (h : matchAt l = some (g, rem)) :
    tsShape g.ts1 ∧ tsShape g.ts2 ∧
    (∃ l1 l2, l = l1 ++ '-' :: '-' :: '>' :: l2) ∧ rem.length < l.length := by
  simp only [matchAt] at h
  split at h
  · exact absurd h (by simp)
  · rename_i hne
    split at h
    · exact absurd h (by simp)
    · rename_i r2 heq1
      split at h
      · exact absurd h (by simp)
      · rename_i ts1 r3 heq2
        split at h
        · exact absurd h (by simp)
        · rename_i r4 heq3
          split at h
          · exact absurd h (by simp)
          · rename_i ts2 r5 heq4
            split at h
            · exact absurd h (by simp)
            · rename_i r6 heq5
              simp only [Option.some.injEq, Prod.mk.injEq] at h
              obtain ⟨hg, hrem⟩ := h
              obtain ⟨hshape1, hdec1⟩ := parseTS_eq heq2
              obtain ⟨hshape2, hdec2⟩ := parseTS_eq heq4
              have hdw : l.dropWhile Char.isDigit = '\n' :: r2 := expectChar_eq_some heq1
              have harr : r3 = ' ' :: '-' :: '-' :: '>' :: ' ' :: r4 := arrow_decomp heq3
              have hr5 : r5 = '\n' :: r6 := expectChar_eq_some heq5
              have hl : l = l.takeWhile Char.isDigit ++ l.dropWhile Char.isDigit :=
                (List.takeWhile_append_dropWhile (p := Char.isDigit) (l := l)).symm
              subst hg
              refine ⟨hshape1, hshape2, ?_, ?_⟩
              · refine ⟨l.takeWhile Char.isDigit ++ '\n' :: (ts1 ++ [' ']),
                  ' ' :: r4, ?_⟩
                conv_lhs => rw [hl, hdw, hdec1, harr]
                simp
              · have hlen : l.length = (l.takeWhile Char.isDigit).length
                    + (l.dropWhile Char.isDigit).length := by
                  have := congrArg List.length hl
                  rwa [List.length_append] at this
                have h1 : (l.dropWhile Char.isDigit).length = r2.length + 1 := by
                  rw [hdw]; simp
                have h2 : r2.length = ts1.length + r3.length := by
                  rw [hdec1]; simp
                have h3 : r3.length = r4.length + 5 := by
                  rw [harr]; simp
                have h4 : r4.length = ts2.length + r5.length := by
                  rw [hdec2]; simp
                have h5 : r5.length = r6.length + 1 := by
                  rw [hr5]; simp
                have h6 : rem.length ≤ r6.length := by
                  rw [← hrem]; exact scanText_snd_length r6
                have h7 : 1 ≤ (l.takeWhile Char.isDigit).length := by
                  rcases he : l.takeWhile Char.isDigit with - | ⟨x, xs⟩
                  · rw [he] at hne; exact absurd rfl hne
                  · simp
                omega

lemma findAllAux_groups : ∀ (fuel : ℕ) (l : List Char) (g : MatchGroups),
    g ∈ findAllAux fuel l → tsShape g.ts1 ∧ tsShape g.ts2 := by
  intro fuel
  induction fuel with
  | zero => intro l g hg; simp [findAllAux] at hg
  | succ fuel ih =>
    intro l g hg
    rw [findAllAux_succ] at hg
    rcases hm : matchAt l with - | ⟨g', rem⟩
    · rw [hm] at hg
      dsimp only at hg
      rcases l with - | ⟨c, rest⟩
      · simp at hg
      · exact ih rest g hg
    · rw [hm] at hg
      dsimp only at hg
      rcases List.mem_cons.mp hg with hg' | hg'
      · subst hg'
        obtain ⟨h1, h2, -, -⟩ := matchAt_eq hm
        exact ⟨h1, h2⟩
      · exact ih rem g hg'

lemma findAllAux_eq_nil : ∀ (fuel : ℕ) (l : List Char),
    pyIn ['-', '-', '>'] l = false → findAllAux fuel l = [] := by
  intro fuel
  induction fuel with
  | zero => intro l _; rfl
  | succ fuel ih =>
    intro l hno
    rw [findAllAux_succ]
    rcases hm : matchAt l with - | ⟨g', rem⟩
    · dsimp only
      rcases l with - | ⟨c, rest⟩
      · rfl
      · exact ih rest (pyIn_cons_false hno)
    · exfalso
      obtain ⟨-, -, ⟨l1, l2, hdec⟩, -⟩ := matchAt_eq hm
      have : pyIn ['-', '-', '>'] l = true := by
        rw [hdec]
        exact pyIn_of_decomp l1 l2
      rw [this] at hno
      exact absurd hno (by simp)

/-- The fuel given to `findAllAux` by `findAll` is irrelevant as long as
it exceeds the input length, since a successful match always consumes at
least one character: the fuel-based definition agrees with the unfueled
scan of `re.findall`. -/
lemma findAllAux_fuel_irrelevant : ∀ (fuel fuel' : ℕ) (l : List Char),
    l.length < fuel → l.length < fuel' → findAllAux fuel l = findAllAux fuel' l := by
  intro fuel
  induction fuel with
  | zero => intro fuel' l h; omega
  | succ fuel ih =>
    intro fuel' l h h'
    rcases fuel' with - | fuel'
    · omega
    · rw [findAllAux_succ, findAllAux_succ]
      rcases hm : matchAt l with - | ⟨g', rem⟩
      · dsimp only
        rcases l with - | ⟨c, rest⟩
        · rfl
        · exact ih fuel' rest (by simp at h; omega) (by simp at h'; omega)
      · dsimp only
        obtain ⟨-, -, -, hlt⟩ := matchAt_eq hm
        rw [ih fuel' rem (by omega) (by omega)]

lemma parseSegs_isSome {gs : List MatchGroups}
    (h : ∀ g ∈ gs, tsShape g.ts1 ∧ tsShape g.ts2) : (parseSegs gs).isSome = true := by
  induction gs with
  | nil => rfl
  | cons g rest ih =>
    obtain ⟨h1, h2⟩ := h g (by simp)
    obtain ⟨s, hs⟩ := Option.isSome_iff_exists.mp (srt_isSome_of_tsShape h1)
    obtain ⟨e, he⟩ := Option.isSome_iff_exists.mp (srt_isSome_of_tsShape h2)
    rw [parseSegs, hs, he]
    have := ih (fun g' hg' => h g' (List.mem_cons_of_mem _ hg'))
    obtain ⟨tl, htl⟩ := Option.isSome_iff_exists.mp this
    rw [htl]
    rfl

/-- Claim C6: transcript parsing is total — it never raises (the
`Option`-valued embedding always returns `some`), and on text that is
not subtitle-shaped (no `-->` arrow anywhere, which covers the empty
string) it returns the empty list of segments. -/
theorem parse_srt_total :
    (∀ content : String, (parse_srt content).isSome = true) ∧
    ∀ content : String, pyIn ['-', '-', '>'] content.data = false →
      parse_srt content = some [] := by
  constructor
  · intro content
    unfold parse_srt
    exact parseSegs_isSome (fun g hg => findAllAux_groups _ _ g hg)
  · intro content h
    unfold parse_srt findAll
    rw [findAllAux_eq_nil _ _ h]
    rfl

/-- Claim C6 witness: a non-subtitle text and the empty string both
parse to `some []`. -/
theorem parse_srt_total_witness :
    (parse_srt "just some prose, no cues at all").isSome = true ∧
    parse_srt "just some prose, no cues at all" = some [] ∧
    parse_srt "" = some [] :=
  ⟨parse_srt_total.1 _, parse_srt_total.2 _ (by decide), parse_srt_total.2 _ (by decide)⟩

/-! ### Lemmas for the timestamp round trip -/

lemma digitChar_toNat {k : ℕ} (h : k < 10) : (digitChar k).toNat = 48 + k := by
  interval_cases k <;> decide

lemma digitChar_isDigit {k : ℕ} (h : k < 10) : (digitChar k).isDigit = true := by
  interval_cases k <;> decide

lemma natDigitsAux_ne_nil : ∀ (fuel n : ℕ), n < fuel → natDigitsAux fuel n ≠ [] := by
  intro fuel
  cases fuel with
  | zero => intro n h; omega
  | succ fuel =>
    intro n _
    rw [natDigitsAux]
    split <;> simp

lemma natDigitsAux_digits : ∀ (fuel n : ℕ), n < fuel →
    ∀ c ∈ natDigitsAux fuel n, c.isDigit = true := by
  intro fuel
  induction fuel with
  | zero => intro n h; omega
  | succ fuel ih =>
    intro n hn c hc
    rw [natDigitsAux] at hc
    split at hc
    · rename_i h10
      have : c = digitChar n := by simpa using hc
      subst this
      exact digitChar_isDigit h10
    · rename_i h10
      rcases List.mem_append.mp hc with hc' | hc'
      · have hdiv : n / 10 < n := Nat.div_lt_self (by omega) (by omega)
        exact ih (n / 10) (by omega) c hc'
      · have : c = digitChar (n % 10) := by simpa using hc'
        subst this
        exact digitChar_isDigit (Nat.mod_lt _ (by omega))

lemma parseDigits_append_singleton (l : List Char) (c : Char) :
    parseDigits (l ++ [c]) = 10 * parseDigits l + (c.toNat - 48) := by
  simp [parseDigits, List.foldl_append]

lemma natDigitsAux_parse : ∀ (fuel n : ℕ), n < fuel →
    parseDigits (natDigitsAux fuel n) = n := by
  intro fuel
  induction fuel with
  | zero => intro n h; omega
  | succ fuel ih =>
    intro n hn
    rw [natDigitsAux]
    split
    · rename_i h10
      simp [parseDigits, digitChar_toNat h10]
    · rename_i h10
      rw [parseDigits_append_singleton]
      have hdiv : n / 10 < n := Nat.div_lt_self (by omega) (by omega)
      rw [ih (n / 10) (by omega), digitChar_toNat (Nat.mod_lt _ (by omega))]
      omega

lemma natDigitsAux_length : ∀ (k fuel n : ℕ), 0 < k → n < fuel → n < 10 ^ k →
    (natDigitsAux fuel n).length ≤ k := by
  intro k
  induction k with
  | zero => intro fuel n hk; omega
  | succ k ih =>
    intro fuel n _ hf hp
    cases fuel with
    | zero => omega
    | succ fuel =>
      rw [natDigitsAux]
      split
      · simp
      · rename_i h10
        rw [List.length_append]
        simp only [List.length_cons, List.length_nil]
        rcases Nat.eq_zero_or_pos k with rfl | hk0
        · rw [pow_one] at hp; omega
        · have hdiv : n / 10 < n := Nat.div_lt_self (by omega) (by omega)
          have hp' : n / 10 < 10 ^ k := by
            rw [Nat.div_lt_iff_lt_mul (by omega)]
            calc n < 10 ^ (k + 1) := hp
              _ = 10 ^ k * 10 := by rw [pow_succ]
          have := ih fuel (n / 10) hk0 (by omega) hp'
          omega

lemma parseDigits_replicate_zero : ∀ (k : ℕ) (l : List Char),
    parseDigits (List.replicate k '0' ++ l) = parseDigits l := by
  intro k
  induction k with
  | zero => intro l; simp
  | succ k ih =>
    intro l
    rw [List.replicate_succ, List.cons_append]
    show parseDigits ('0' :: (List.replicate k '0' ++ l)) = parseDigits l
    rw [parseDigits, List.foldl_cons]
    have h0 : 10 * 0 + ('0'.toNat - 48) = 0 := by decide
    rw [h0]
    exact ih l

lemma leftPad0_parse (w : ℕ) (l : List Char) :
    parseDigits (leftPad0 w l) = parseDigits l :=
  parseDigits_replicate_zero _ _

lemma leftPad0_ne_nil {l : List Char} (w : ℕ) (h : l ≠ []) : leftPad0 w l ≠ [] := by
  rw [leftPad0]
  intro hc
  rcases List.append_eq_nil.mp hc with ⟨-, h2⟩
  exact h h2

lemma leftPad0_digits {l : List Char} (w : ℕ) (h : ∀ c ∈ l, c.isDigit = true) :
    ∀ c ∈ leftPad0 w l, c.isDigit = true := by
  intro c hc
  rcases List.mem_append.mp hc with hc' | hc'
  · have : c = '0' := List.eq_of_mem_replicate hc'
    subst this; decide
  · exact h c hc'

lemma leftPad0_length {l : List Char} {w : ℕ} (h : l.length ≤ w) :
    (leftPad0 w l).length = w := by
  rw [leftPad0, List.length_append, List.length_replicate]
  omega

/-- The digit strings used below contain no `','`, `':'` or `'.'`. -/
lemma digits_notMem_comma {l : List Char} (h : ∀ c ∈ l, c.isDigit = true) : ',' ∉ l :=
  fun hm => absurd (h ',' hm) (by decide)

lemma digits_notMem_colon {l : List Char} (h : ∀ c ∈ l, c.isDigit = true) : ':' ∉ l :=
  fun hm => absurd (h ':' hm) (by decide)

lemma digits_notMem_dot {l : List Char} (h : ∀ c ∈ l, c.isDigit = true) : '.' ∉ l :=
  fun hm => absurd (h '.' hm) (by decide)

lemma pyReplace_id {l : List Char} (h : ∀ c ∈ l, c.isDigit = true) :
    pyReplace ',' '.' l = l := by
  have : ∀ c ∈ l, (if c = ',' then '.' else c) = id c := by
    intro c hc
    rw [if_neg (digit_ne_comma (h c hc))]
    rfl
  rw [pyReplace]
  calc l.map (fun c => if c = ',' then '.' else c) = l.map id := List.map_congr_left this
    _ = l := List.map_id l

lemma pymod_nonneg (x : ℚ) {y : ℚ} (hy : 0 < y) : 0 ≤ pymod x y := by
  rw [pymod]
  have h1 : ((⌊x / y⌋ : ℤ) : ℚ) ≤ x / y := Int.floor_le _
  have h2 : y * ((⌊x / y⌋ : ℤ) : ℚ) ≤ y * (x / y) := by
    exact mul_le_mul_of_nonneg_left h1 (le_of_lt hy)
  rw [mul_div_cancel₀ x (ne_of_gt hy)] at h2
  linarith

lemma pymod_lt (x : ℚ) {y : ℚ} (hy : 0 < y) : pymod x y < y := by
  rw [pymod]
  have h1 : x / y < ((⌊x / y⌋ : ℤ) : ℚ) + 1 := Int.lt_floor_add_one _
  have h2 : y * (x / y) < y * (((⌊x / y⌋ : ℤ) : ℚ) + 1) := by
    exact mul_lt_mul_of_pos_left h1 hy
  rw [mul_div_cancel₀ x (ne_of_gt hy)] at h2
  nlinarith

lemma pyReplace_append (a b : Char) (l1 l2 : List Char) :
    pyReplace a b (l1 ++ l2) = pyReplace a b l1 ++ pyReplace a b l2 := by
  simp [pyReplace]

lemma pyReplace_cons (a b c : Char) (l : List Char) :
    pyReplace a b (c :: l) = (if c = a then b else c) :: pyReplace a b l := rfl

/-- Claim C7: for every seconds value `s` in `[0, 359999.999]`, parsing
the formatted timestamp recovers `s` to within one millisecond:
`srt_to_seconds (seconds_to_srt s) = some r` with `|r - s| ≤ 0.001`. -/
theorem srt_roundtrip (s : ℚ) (h0 : 0 ≤ s) (h1 : s ≤ 359999.999) :
    ∃ r : ℚ, srt_to_seconds (seconds_to_srt s) = some r ∧ |r - s| ≤ 0.001 := by
  have h1' : s < 360000 := by
    have : (359999.999 : ℚ) = 359999999 / 1000 := by norm_num
    rw [this] at h1
    linarith
  set H : ℤ := ⌊s / 3600⌋ with hHdef
  set M : ℤ := ⌊pymod s 3600 / 60⌋ with hMdef
  set SC : ℤ := pytrunc (pymod s 60) with hSCdef
  set MS : ℤ := pytrunc (pymod s 1 * 1000) with hMSdef
  set N : ℤ := ⌊s⌋ with hNdef
  set K : ℤ := ⌊s / 60⌋ with hKdef
  -- ranges
  have hH0 : 0 ≤ H := Int.floor_nonneg.mpr (by positivity)
  have hH99 : H < 100 := by
    rw [hHdef]
    refine Int.floor_lt.mpr ?_
    rw [div_lt_iff₀ (by norm_num : (0:ℚ) < 3600)]
    push_cast
    linarith
  have hpm1_0 : 0 ≤ pymod s 3600 := pymod_nonneg s (by norm_num)
  have hpm1_lt : pymod s 3600 < 3600 := pymod_lt s (by norm_num)
  have hM0 : 0 ≤ M := Int.floor_nonneg.mpr (by positivity)
  have hM59 : M < 60 := by
    rw [hMdef]
    refine Int.floor_lt.mpr ?_
    rw [div_lt_iff₀ (by norm_num : (0:ℚ) < 60)]
    push_cast
    linarith
  have hpm2_0 : 0 ≤ pymod s 60 := pymod_nonneg s (by norm_num)
  have hpm2_lt : pymod s 60 < 60 := pymod_lt s (by norm_num)
  have hSCfloor : SC = ⌊pymod s 60⌋ := by rw [hSCdef, pytrunc, if_pos hpm2_0]
  have hSC0 : 0 ≤ SC := by rw [hSCfloor]; exact Int.floor_nonneg.mpr hpm2_0
  have hSC59 : SC < 60 := by
    rw [hSCfloor]
    exact Int.floor_lt.mpr (by push_cast; linarith)
  have hpm3_0 : 0 ≤ pymod s 1 := pymod_nonneg s (by norm_num)
  have hpm3_lt : pymod s 1 < 1 := pymod_lt s (by norm_num)
  have hMSfloor : MS = ⌊pymod s 1 * 1000⌋ := by
    rw [hMSdef, pytrunc, if_pos (by positivity)]
  have hMS0 : 0 ≤ MS := by rw [hMSfloor]; exact Int.floor_nonneg.mpr (by positivity)
  have hMS999 : MS < 1000 := by
    rw [hMSfloor]
    exact Int.floor_lt.mpr (by push_cast; nlinarith)
  -- the four padded digit strings
  set A : List Char := leftPad0 2 (natDigits H.toNat) with hAdef
  set B : List Char := leftPad0 2 (natDigits M.toNat) with hBdef
  set C : List Char := leftPad0 2 (natDigits SC.toNat) with hCdef
  set D : List Char := leftPad0 3 (natDigits MS.toNat) with hDdef
  have hAdig : ∀ c ∈ A, c.isDigit = true :=
    leftPad0_digits _ (natDigitsAux_digits _ _ (Nat.lt_succ_self _))
  have hBdig : ∀ c ∈ B, c.isDigit = true :=
    leftPad0_digits _ (natDigitsAux_digits _ _ (Nat.lt_succ_self _))
  have hCdig : ∀ c ∈ C, c.isDigit = true :=
    leftPad0_digits _ (natDigitsAux_digits _ _ (Nat.lt_succ_self _))
  have hDdig : ∀ c ∈ D, c.isDigit = true :=
    leftPad0_digits _ (natDigitsAux_digits _ _ (Nat.lt_succ_self _))
  have hAne : A ≠ [] := leftPad0_ne_nil _ (natDigitsAux_ne_nil _ _ (Nat.lt_succ_self _))
  have hBne : B ≠ [] := leftPad0_ne_nil _ (natDigitsAux_ne_nil _ _ (Nat.lt_succ_self _))
  have hCne : C ≠ [] := leftPad0_ne_nil _ (natDigitsAux_ne_nil _ _ (Nat.lt_succ_self _))
  -- formatting and re-parsing
  have hfmt : seconds_to_srt s = A ++ ':' :: (B ++ ':' :: (C ++ ',' :: D)) := by
    simp only [seconds_to_srt]
    rw [pyFmt0, if_pos hH0, pyFmt0, if_pos hM0, pyFmt0, if_pos hSC0, pyFmt0, if_pos hMS0]
    simp [List.append_assoc]
  have hrep : pyReplace ',' '.' (A ++ ':' :: (B ++ ':' :: (C ++ ',' :: D)))
      = A ++ ':' :: (B ++ ':' :: (C ++ '.' :: D)) := by
    rw [pyReplace_append, pyReplace_cons, pyReplace_append, pyReplace_cons,
        pyReplace_append, pyReplace_cons,
        pyReplace_id hAdig, pyReplace_id hBdig, pyReplace_id hCdig, pyReplace_id hDdig]
    rw [show (if (':' : Char) = ',' then '.' else ':') = ':' from by decide]
    rw [show (if (',' : Char) = ',' then '.' else ',') = '.' from by decide]
  have hE : (':' : Char) ∉ C ++ '.' :: D := by
    intro hm
    rcases List.mem_append.mp hm with hm' | hm'
    · exact digits_notMem_colon hCdig hm'
    · rcases List.mem_cons.mp hm' with hm'' | hm''
      · exact absurd hm'' (by decide)
      · exact digits_notMem_colon hDdig hm''
  have hsplit : splitOnChar ':' (A ++ ':' :: (B ++ ':' :: (C ++ '.' :: D)))
      = [A, B, C ++ '.' :: D] := by
    rw [splitOnChar_append_cons (digits_notMem_colon hAdig),
        splitOnChar_append_cons (digits_notMem_colon hBdig),
        splitOnChar_of_notMem hE]
  have hAall : A.all Char.isDigit = true := List.all_eq_true.mpr hAdig
  have hBall : B.all Char.isDigit = true := List.all_eq_true.mpr hBdig
  have hCall : C.all Char.isDigit = true := List.all_eq_true.mpr hCdig
  have hDall : D.all Char.isDigit = true := List.all_eq_true.mpr hDdig
  have heval : srt_to_seconds (seconds_to_srt s)
      = some (((parseDigits A : ℤ) : ℚ) * 3600 + ((parseDigits B : ℤ) : ℚ) * 60
          + ((parseDigits C : ℚ) + (parseDigits D : ℚ) / 10 ^ D.length)) := by
    rw [hfmt, srt_to_seconds, hrep, hsplit]
    dsimp only
    rw [pyInt?_digits hAne hAall, pyInt?_digits hBne hBall,
        pyFloat?_point C D hCne hCall hDall (digits_notMem_dot hCdig) (digits_notMem_dot hDdig)]
  -- parse values
  have hApar : parseDigits A = H.toNat := by
    rw [hAdef, leftPad0_parse]
    exact natDigitsAux_parse _ _ (Nat.lt_succ_self _)
  have hBpar : parseDigits B = M.toNat := by
    rw [hBdef, leftPad0_parse]
    exact natDigitsAux_parse _ _ (Nat.lt_succ_self _)
  have hCpar : parseDigits C = SC.toNat := by
    rw [hCdef, leftPad0_parse]
    exact natDigitsAux_parse _ _ (Nat.lt_succ_self _)
  have hDpar : parseDigits D = MS.toNat := by
    rw [hDdef, leftPad0_parse]
    exact natDigitsAux_parse _ _ (Nat.lt_succ_self _)
  have hDlen : D.length = 3 := by
    rw [hDdef]
    refine leftPad0_length (natDigitsAux_length 3 _ _ (by norm_num) (Nat.lt_succ_self _) ?_)
    have : MS.toNat < 1000 := by omega
    simpa using this
  -- the recovered value
  have hcastH : ((H.toNat : ℕ) : ℚ) = (H : ℚ) := by
    exact_mod_cast congrArg (Int.cast : ℤ → ℚ) (Int.toNat_of_nonneg hH0)
  have hcastM : ((M.toNat : ℕ) : ℚ) = (M : ℚ) := by
    exact_mod_cast congrArg (Int.cast : ℤ → ℚ) (Int.toNat_of_nonneg hM0)
  have hcastSC : ((SC.toNat : ℕ) : ℚ) = (SC : ℚ) := by
    exact_mod_cast congrArg (Int.cast : ℤ → ℚ) (Int.toNat_of_nonneg hSC0)
  have hcastMS : ((MS.toNat : ℕ) : ℚ) = (MS : ℚ) := by
    exact_mod_cast congrArg (Int.cast : ℤ → ℚ) (Int.toNat_of_nonneg hMS0)
  refine ⟨(H : ℚ) * 3600 + (M : ℚ) * 60 + ((SC : ℚ) + (MS : ℚ) / 1000), ?_, ?_⟩
  · rw [heval, hApar, hBpar, hCpar, hDpar, hDlen]
    push_cast [hcastH, hcastM, hcastSC, hcastMS]
    norm_num
  · -- the three mod/floor identities
    have hMid : M = K - 60 * H := by
      rw [hMdef, show pymod s 3600 / 60 = s / 60 - ((60 * H : ℤ) : ℚ) from by
        rw [pymod]; push_cast; ring, Int.floor_sub_int, hKdef]
    have hSCid : SC = N - 60 * K := by
      rw [hSCfloor, show pymod s 60 = s - ((60 * K : ℤ) : ℚ) from by
        rw [pymod]; push_cast; ring, Int.floor_sub_int, hNdef]
    have hsum : H * 3600 + M * 60 + SC = N := by
      rw [hMid, hSCid]; ring
    have hpm3 : pymod s 1 = s - (N : ℚ) := by
      rw [pymod, div_one, hNdef]; ring
    have hle : ((MS : ℤ) : ℚ) ≤ (s - (N : ℚ)) * 1000 := by
      rw [hMSfloor, hpm3]
      exact Int.floor_le _
    have hlt : (s - (N : ℚ)) * 1000 < ((MS : ℤ) : ℚ) + 1 := by
      rw [hMSfloor, hpm3]
      exact Int.lt_floor_add_one _
    have hsumQ : (H : ℚ) * 3600 + (M : ℚ) * 60 + (SC : ℚ) = (N : ℚ) := by
      exact_mod_cast congrArg (Int.cast : ℤ → ℚ) hsum
    have habs : (0.001 : ℚ) = 1 / 1000 := by norm_num
    rw [habs, abs_le]
    constructor
    · have : (H : ℚ) * 3600 + (M : ℚ) * 60 + ((SC : ℚ) + (MS : ℚ) / 1000) - s
          = (N : ℚ) + (MS : ℚ) / 1000 - s := by rw [← hsumQ]; ring
      rw [this]
      linarith
    · have : (H : ℚ) * 3600 + (M : ℚ) * 60 + ((SC : ℚ) + (MS : ℚ) / 1000) - s
          = (N : ℚ) + (MS : ℚ) / 1000 - s := by rw [← hsumQ]; ring
      rw [this]
      have hNle : (N : ℚ) ≤ s := Int.floor_le s
      linarith

/-- Claim C7 witness: the round trip at `s = 7384.5` (02:03:04,500). -/
theorem srt_roundtrip_witness :
    ∃ r : ℚ, srt_to_seconds (seconds_to_srt 7384.5) = some r ∧ |r - 7384.5| ≤ 0.001 :=
  srt_roundtrip 7384.5 (by decide) (by decide)

example : seconds_to_srt 3661.5 = "01:01:01,500".data := by decide
example : srt_to_seconds "01:01:01,500".data = some (3661.5 : ℚ) := by decide
example : parse_srt "hello world" = some [] := by decide
example :
    parse_srt "1\n00:00:01,000 --> 00:00:02,500\nhi there\n\n2\n00:00:03,000 --> 00:00:04,000\nyo\n" =
      some [⟨1, 2.5, "hi there"⟩, ⟨3, 4, "yo"⟩] := by decide
example : detect_viral_moments [⟨0, 55, "amazing"⟩] 50 10 = [⟨0, 55, 3/10, "amazing"⟩] := by
  decide
example : detect_viral_moments [] 90 10 = [⟨0, 60, 5/10, "Interval clip"⟩] := by decide
example : detect_viral_moments [] 30 10 = [] := by decide
example : clip_srt_entries [⟨5, 15, "a"⟩, ⟨11, 14, "b"⟩] 10 20 = [(1, 1, 4, "b")] := by decide
